import Mathlib

/-!
Verification of the page-deleter tool's preview and deletion subsystem
(src/PDF_page_deleter.py): the bounded page-render cache of `render_page`,
the viewport visibility calculator `get_visible_pages`, the cache-cleanup
step of `render_visible_pages`, the zoom operations, and the page-deletion
model (`delete_page` / `save_changes` / `load_pdf`).

Modelling choices: Python ints are `Nat`/`Int`, Python floats are `ℚ`
(the operations verified here — multiplication by constants and clamping
with `max`/`min` — are exact), the `OrderedDict` page cache is an
insertion-ordered association list whose head is the earliest-inserted
entry, the Python `set` of page numbers is a `Finset ℕ`, and the
filesystem (which pages live at which path) is an explicit function
`fs : List Char → List α` with pages drawn from an arbitrary type `α`.
-/

namespace PageDeleter

/-- Source line 91: self.max_cache_size = 20. -/
def max_cache_size : ℕ := 20

/-- Cache transition performed by render_page (source lines 604-623) for one
requested page: on a hit the cached bitmap is reused and the cache is left
unchanged (plain dictionary read, no reordering); on a miss the page is
rasterized and, if the resident count exceeds max_cache_size, the
earliest-inserted entry is evicted first (popitem with last=False on the
OrderedDict, i.e. the head of the insertion-ordered list), after which the
new entry is appended at the tail. -/
def render_step {β : Type} (k : ℕ) (v : β) (c : List (ℕ × β)) : List (ℕ × β) :=
  if (c.lookup k).isSome then c
  else
    (if max_cache_size < c.length then c.drop 1 else c) ++ [(k, v)]

/-- Source line 585: cleanup_range = 5 (pages kept beyond the visible range). -/
def cleanup_range : ℤ := 5

/-- Cache-cleanup step of render_visible_pages (source lines 584-590): the
loop ranges over page numbers 0 .. len(pdf_document)-1 and deletes from the
cache every such page number that lies more than cleanup_range below
first_visible or above last_visible. -/
def cleanup_step {β : Type} (doc_len : ℕ) (first_visible last_visible : ℤ)
    (c : List (ℕ × β)) : List (ℕ × β) :=
  c.filter (fun e =>
    !(decide (e.1 < doc_len) &&
      (decide ((e.1 : ℤ) < first_visible - cleanup_range) ||
       decide (last_visible + cleanup_range < (e.1 : ℤ)))))

/-- The three-way overlap test of get_visible_pages (source lines 506-510):
a page box [top, bottom) is visible in the viewport [vt, vb) when its top is
inside the viewport, or its bottom is inside, or it spans the viewport. -/
def threeWayVisible (vt vb top bottom : ℕ) : Bool :=
  (decide (vt ≤ top) && decide (top < vb)) ||
  (decide (vt < bottom) && decide (bottom ≤ vb)) ||
  (decide (top ≤ vt) && decide (vb ≤ bottom))

/-- Loop of get_visible_pages (source lines 492-519): walk the per-page
containers accumulating the running top offset, append the index of every
container passing the three-way test, and break once a container's top lies
strictly below the viewport bottom. -/
def visibleAux (vt vb : ℕ) : ℕ → ℕ → List ℕ → List ℕ
  | _, _, [] => []
  | i, top, h :: rest =>
    let tail := if vb < top then [] else visibleAux vt vb (i + 1) (top + h) rest
    if threeWayVisible vt vb top (top + h) then i :: tail else tail

/-- get_visible_pages (source lines 480-524): heights are the container
heights in document order; the viewport is [scroll_pos,
scroll_pos + viewport_height). -/
def get_visible_pages (heights : List ℕ) (scroll_pos viewport_height : ℕ) : List ℕ :=
  visibleAux scroll_pos (scroll_pos + viewport_height) 0 0 heights

/-- The characters of ".pdf". -/
def pdfExt : List Char := ['.', 'p', 'd', 'f']

/-- The characters of "_modified.pdf". -/
def modExt : List Char := ['_', 'm', 'o', 'd', 'i', 'f', 'i', 'e', 'd', '.', 'p', 'd', 'f']

/-- Source line 763: new_pdf_path = self.pdf_path.replace('.pdf', '_modified.pdf').
Python str.replace substitutes every non-overlapping occurrence of the
pattern, scanning left to right; this is that algorithm specialized to the
constant pattern ".pdf" and replacement "_modified.pdf". -/
def save_path : List Char → List Char
  | [] => []
  | '.' :: 'p' :: 'd' :: 'f' :: rest => modExt ++ save_path rest
  | c :: rest => c :: save_path rest

/-- Rebuild loop of delete_page (source lines 750-752): iterate the original
document's pages with 0-based counter i and keep every page whose 1-based
number i + 1 is not in the deletion set. -/
def rebuildAux {α : Type} (s : Finset ℕ) : ℕ → List α → List α
  | _, [] => []
  | i, page :: rest =>
    if i + 1 ∈ s then rebuildAux s (i + 1) rest
    else page :: rebuildAux s (i + 1) rest

/-- The modified document rebuilt from the original pages and the deletion
set, exactly as delete_page does on every mark. -/
def rebuild {α : Type} (pages : List α) (s : Finset ℕ) : List α :=
  rebuildAux s 0 pages

/-- The session state of the window object: the loaded path (None before any
load), the deletion set pages_to_delete consulted by delete_page, the
separate deleted_pages attribute reset by load_pdf, the rebuilt writer
modified_pdf, the page render cache, and the zoom level. -/
structure AppState (α β : Type) where
  pdf_path : Option (List Char)
  pages_to_delete : Finset ℕ
  deleted_pages : Finset ℕ
  modified_pdf : Option (List α)
  page_cache : List (ℕ × β)
  zoom_level : ℚ
deriving DecidableEq

/-- delete_page (source lines 733-756): refuse when no path is loaded (a
falsy pdf_path, i.e. None or the empty string), otherwise add the requested
1-based page number to pages_to_delete and rebuild modified_pdf from the
original file's pages filtered by the updated set. -/
def delete_page {α β : Type} (fs : List Char → List α) (page_number : ℕ)
    (st : AppState α β) : AppState α β :=
  match st.pdf_path with
  | none => st
  | some path =>
    if path = [] then st
    else
      { st with
        pages_to_delete := insert page_number st.pages_to_delete,
        modified_pdf := some (rebuild (fs path) (insert page_number st.pages_to_delete)) }

/-- save_changes (source lines 758-767): refuse when modified_pdf is None,
otherwise write the rebuilt document to the path obtained from pdf_path by
the replace call modelled by save_path. The result is the written
(path, page sequence) pair, or none when nothing is written. -/
def save_changes {α β : Type} (st : AppState α β) : Option (List Char × List α) :=
  match st.modified_pdf, st.pdf_path with
  | some doc, some path => some (save_path path, doc)
  | _, _ => none

/-- Success path of load_pdf (source lines 1177-1198): for a nonempty chosen
file name, replace pdf_path, reset deleted_pages to the empty set, reset
modified_pdf to None and clear the page cache. The attribute
pages_to_delete is not touched. -/
def load_pdf {α β : Type} (file_name : List Char) (st : AppState α β) : AppState α β :=
  if file_name = [] then st
  else
    { st with
      pdf_path := some file_name,
      deleted_pages := ∅,
      modified_pdf := none,
      page_cache := [] }

/-- adjust_zoom (source lines 431-450): multiply the zoom level by the
factor, clamp to [0.1, 5.0], and clear the render cache. -/
def adjust_zoom {α β : Type} (factor : ℚ) (st : AppState α β) : AppState α β :=
  { st with
    zoom_level := max (1/10) (min 5 (st.zoom_level * factor)),
    page_cache := [] }

/-- zoom_in (source lines 790-792): multiply the zoom level by 1.2, with no
clamping. -/
def zoom_in {α β : Type} (st : AppState α β) : AppState α β :=
  { st with zoom_level := st.zoom_level * (1.2 : ℚ) }

/-- zoom_out (source lines 794-796): divide the zoom level by 1.2, with no
clamping. -/
def zoom_out {α β : Type} (st : AppState α β) : AppState α β :=
  { st with zoom_level := st.zoom_level / (1.2 : ℚ) }

/-- wheelEvent (source lines 818-827): with the Control modifier held, a
positive wheel delta calls zoom_in and any other delta calls zoom_out;
without Control the event is passed on and the state is unchanged. -/
def wheelEvent {α β : Type} (ctrl : Bool) (angleDeltaY : ℤ) (st : AppState α β) :
    AppState α β :=
  if ctrl then (if 0 < angleDeltaY then zoom_in st else zoom_out st) else st

/-- The state right after a successful load of path into a fresh session:
empty deletion set, no rebuilt document, empty cache, zoom 1.0. -/
def freshLoaded {α β : Type} (path : List Char) : AppState α β :=
  ⟨some path, ∅, ∅, none, [], 1⟩

/-- A concrete filesystem for witnesses: every path holds a 3-page document. -/
def fsDoc : List Char → List ℕ := fun _ => [10, 20, 30]

/-- A concrete loaded path for witnesses: the characters of "a.pdf". -/
def pathA : List Char := ['a', '.', 'p', 'd', 'f']

/-- A concrete state for witnesses: "a.pdf" loaded, page 2 already marked. -/
def stA : AppState ℕ ℕ := ⟨some pathA, {2}, ∅, none, [], 1⟩

/-- A concrete state for witnesses: no document, zoom 1.0. -/
def stZ : AppState ℕ ℕ := ⟨none, ∅, ∅, none, [], 1⟩

/-- A full cache of max_cache_size + 1 entries for witnesses. -/
def cache21 : List (ℕ × ℕ) := (List.range (max_cache_size + 1)).map (fun i => (i, 0))

/-- The characters of "a.pdf.pdf", a path in which ".pdf" occurs twice. -/
def pathDouble : List Char := ['a', '.', 'p', 'd', 'f', '.', 'p', 'd', 'f']

/-- A state for the save-path counterexample: "a.pdf.pdf" loaded and a
one-page modified document pending. -/
def stDouble : AppState ℕ ℕ := ⟨some pathDouble, ∅, ∅, some [10], [], 1⟩

/-- A state for the save-path witness: "a.pdf" loaded and a one-page
modified document pending. -/
def stSave : AppState ℕ ℕ := ⟨some (['a'] ++ pdfExt), ∅, ∅, some [10], [], 1⟩

/-- One render_step keeps the cache within max_cache_size + 1 entries. -/
lemma render_step_length_le {β : Type} (k : ℕ) (v : β) (c : List (ℕ × β))
    (h : c.length ≤ max_cache_size + 1) :
    (render_step k v c).length ≤ max_cache_size + 1 := by
  unfold render_step
  split
  · exact h
  · split <;> simp only [List.length_append, List.length_drop, List.length_singleton] <;> omega

/-- Folding render_step preserves the max_cache_size + 1 bound. -/
lemma foldl_render_step_length {β : Type} (ops : List (ℕ × β)) :
    ∀ c : List (ℕ × β), c.length ≤ max_cache_size + 1 →
      (ops.foldl (fun c p => render_step p.1 p.2 c) c).length ≤ max_cache_size + 1 := by
  induction ops with
  | nil => intro c h; exact h
  | cons p ops ih =>
    intro c h
    exact ih _ (render_step_length_le p.1 p.2 c h)

/-- C4 counterexample: after a sequence of 21 puts with distinct keys into
the initially empty cache, the cache holds 21 entries, which exceeds
max_cache_size = 20 — the eviction check uses a strict greater-than before
inserting, so the claimed bound of 20 is violated. -/
theorem cache_exceeds_claimed_bound :
    ¬ (((List.range (max_cache_size + 1)).foldl
        (fun c k => render_step k 0 c) ([] : List (ℕ × ℕ))).length ≤ max_cache_size) := by
  decide

/-- C4 (amended): after every sequence of put operations starting from the
empty cache, the render cache of render_page holds at most
max_cache_size + 1 = 21 resident entries. -/
theorem cache_size_at_most_bound_plus_one {β : Type} (ops : List (ℕ × β)) :
    (ops.foldl (fun c p => render_step p.1 p.2 c) []).length ≤ max_cache_size + 1 :=
  foldl_render_step_length ops [] (by simp)

/-- C5: a cache hit leaves the insertion-ordered cache unchanged (so
intervening reads never change which entry is evicted next), and a miss
that triggers eviction removes exactly the head of the insertion-ordered
list — the earliest-inserted still-resident entry — before appending the
new entry at the tail. -/
theorem eviction_insertion_order {β : Type} (c : List (ℕ × β)) (k : ℕ) (v : β) :
    ((c.lookup k).isSome = true → render_step k v c = c) ∧
    ((c.lookup k).isSome = false → max_cache_size < c.length →
      render_step k v c = c.drop 1 ++ [(k, v)]) := by
  constructor
  · intro h
    simp [render_step, h]
  · intro h h2
    simp [render_step, h, h2]

/-- Witness for eviction_insertion_order at a concrete 21-entry cache: key 5
is a hit and leaves the cache unchanged; key 99 is a miss, triggers
eviction, and the evicted entry is the earliest-inserted one (the head). -/
theorem eviction_insertion_order_witness :
    (cache21.lookup 5).isSome = true ∧ render_step 5 0 cache21 = cache21 ∧
    (cache21.lookup 99).isSome = false ∧ max_cache_size < cache21.length ∧
    render_step 99 0 cache21 = cache21.drop 1 ++ [(99, 0)] :=
  ⟨by decide, (eviction_insertion_order cache21 5 0).1 (by decide),
   by decide, by decide,
   (eviction_insertion_order cache21 99 0).2 (by decide) (by decide)⟩

/-- C6: when every cached key is a valid page index of the loaded document
(an invariant of the program: render_page only caches indices below the page
count and the cache is cleared on load), the cleanup step removes exactly
the entries whose page index is below first_visible - 5 or above
last_visible + 5, and no others. -/
theorem cleanup_removes_exactly_far_pages {β : Type} (doc_len : ℕ)
    (first_visible last_visible : ℤ) (c : List (ℕ × β))
    (hkeys : ∀ e ∈ c, e.1 < doc_len) :
    cleanup_step doc_len first_visible last_visible c =
      c.filter (fun e =>
        !(decide ((e.1 : ℤ) < first_visible - cleanup_range) ||
          decide (last_visible + cleanup_range < (e.1 : ℤ)))) := by
  unfold cleanup_step
  apply List.filter_congr
  intro e he
  have h := hkeys e he
  simp [decide_eq_true h]

/-- Witness for cleanup_removes_exactly_far_pages: a 10-page document, cache
holding pages 3 and 9, visible range [0, 2]; page 9 lies above 2 + 5 and is
removed, page 3 survives. -/
theorem cleanup_removes_exactly_far_pages_witness :
    (∀ e ∈ ([(3, 0), (9, 0)] : List (ℕ × ℕ)), e.1 < 10) ∧
    cleanup_step 10 0 2 ([(3, 0), (9, 0)] : List (ℕ × ℕ)) =
      ([(3, 0), (9, 0)] : List (ℕ × ℕ)).filter (fun e =>
        !(decide ((e.1 : ℤ) < 0 - cleanup_range) ||
          decide (2 + cleanup_range < (e.1 : ℤ)))) :=
  ⟨by decide, cleanup_removes_exactly_far_pages 10 0 2 _ (by decide)⟩

/-- The three-way test in Prop form. -/
lemma threeWayVisible_iff (vt vb top bottom : ℕ) :
    threeWayVisible vt vb top bottom = true ↔
      ((vt ≤ top ∧ top < vb) ∨ (vt < bottom ∧ bottom ≤ vb) ∨ (top ≤ vt ∧ vb ≤ bottom)) := by
  simp [threeWayVisible, or_assoc]

/-- A box whose top lies strictly below the viewport bottom fails the
three-way test. -/
lemma notVisible (vt vb top h : ℕ) (hvtb : vt ≤ vb) (hb : vb < top) :
    ¬ (threeWayVisible vt vb top (top + h) = true) := by
  rw [threeWayVisible_iff]
  omega

/-- Membership in the visibility loop: the loop (including its early break)
returns exactly the indices whose stacked box passes the three-way test. -/
lemma visibleAux_mem (vt vb : ℕ) (hv : vt ≤ vb) :
    ∀ (L : List ℕ) (i0 t0 j : ℕ),
      j ∈ visibleAux vt vb i0 t0 L ↔
        ∃ k, k < L.length ∧ j = i0 + k ∧
          threeWayVisible vt vb (t0 + (L.take k).sum)
            (t0 + (L.take k).sum + L.getD k 0) = true := by
  intro L
  induction L with
  | nil => intro i0 t0 j; simp [visibleAux]
  | cons h rest ih =>
    intro i0 t0 j
    rw [visibleAux]
    by_cases hb : vb < t0
    · have hnv : ¬ (threeWayVisible vt vb t0 (t0 + h) = true) := notVisible vt vb t0 h hv hb
      simp only [hb, if_true, if_pos, eq_self_iff_true]
      rw [if_neg hnv]
      simp only [List.not_mem_nil, false_iff, not_exists]
      rintro k ⟨hk, rfl, htest⟩
      cases k with
      | zero =>
        apply hnv
        simpa using htest
      | succ n =>
        rw [List.take_succ_cons, List.sum_cons, List.getD_cons_succ] at htest
        exact notVisible vt vb (t0 + (h + (rest.take n).sum)) (rest.getD n 0) hv
          (by omega) htest
    · simp only [if_neg hb]
      by_cases hvis : threeWayVisible vt vb t0 (t0 + h) = true
      · rw [if_pos hvis]
        simp only [List.mem_cons, ih (i0 + 1) (t0 + h) j]
        constructor
        · rintro (rfl | ⟨k, hk, rfl, ht⟩)
          · refine ⟨0, by simp, by omega, ?_⟩
            simpa using hvis
          · refine ⟨k + 1, by simpa using hk, by omega, ?_⟩
            rw [List.take_succ_cons, List.sum_cons, List.getD_cons_succ, ← Nat.add_assoc]
            exact ht
        · rintro ⟨k, hk, rfl, ht⟩
          cases k with
          | zero => left; omega
          | succ n =>
            right
            refine ⟨n, by simpa using hk, by omega, ?_⟩
            rw [List.take_succ_cons, List.sum_cons, List.getD_cons_succ,
              ← Nat.add_assoc] at ht
            exact ht
      · rw [if_neg hvis]
        rw [ih (i0 + 1) (t0 + h) j]
        constructor
        · rintro ⟨k, hk, rfl, ht⟩
          refine ⟨k + 1, by simpa using hk, by omega, ?_⟩
          rw [List.take_succ_cons, List.sum_cons, List.getD_cons_succ, ← Nat.add_assoc]
          exact ht
        · rintro ⟨k, hk, rfl, ht⟩
          cases k with
          | zero =>
            exfalso
            apply hvis
            simpa using ht
          | succ n =>
            refine ⟨n, by simpa using hk, by omega, ?_⟩
            rw [List.take_succ_cons, List.sum_cons, List.getD_cons_succ,
              ← Nat.add_assoc] at ht
            exact ht

/-- C7: get_visible_pages returns exactly the page indices whose stacked
layout box passes the three-way overlap test against the viewport, and on
the concrete layout of heights 100, 150, 80 with viewport [120, 320) it
returns exactly pages 1 and 2. -/
theorem visible_pages_exactly_overlapping :
    (∀ (heights : List ℕ) (scroll_pos viewport_height i : ℕ),
        i ∈ get_visible_pages heights scroll_pos viewport_height ↔
          i < heights.length ∧
            threeWayVisible scroll_pos (scroll_pos + viewport_height)
              ((heights.take i).sum) ((heights.take i).sum + heights.getD i 0) = true) ∧
    get_visible_pages [100, 150, 80] 120 200 = [1, 2] := by
  constructor
  · intro heights vt vh i
    rw [get_visible_pages,
      visibleAux_mem vt (vt + vh) (Nat.le_add_right _ _) heights 0 0 i]
    constructor
    · rintro ⟨k, hk, rfl, ht⟩
      simp only [Nat.zero_add] at ht ⊢
      exact ⟨hk, ht⟩
    · rintro ⟨hi, ht⟩
      refine ⟨i, hi, by omega, ?_⟩
      simp only [Nat.zero_add]
      exact ht
  · decide

/-- C8: adjust_zoom keeps the zoom level inside [0.1, 5.0] after every
finite sequence of calls, for every starting zoom level in that range. -/
theorem zoom_level_clamped {α β : Type} (factors : List ℚ) (st : AppState α β)
    (h1 : 1/10 ≤ st.zoom_level) (h2 : st.zoom_level ≤ 5) :
    1/10 ≤ (factors.foldl (fun s f => adjust_zoom f s) st).zoom_level ∧
    (factors.foldl (fun s f => adjust_zoom f s) st).zoom_level ≤ 5 := by
  induction factors generalizing st with
  | nil => exact ⟨h1, h2⟩
  | cons f fs ih =>
    simp only [List.foldl_cons]
    refine ih (adjust_zoom f st) ?_ ?_
    · exact le_max_left _ _
    · exact max_le (by norm_num) (min_le_left _ _)

/-- Witness for zoom_level_clamped: starting at zoom 1.0 and applying the
factors 10 and 1/100, the zoom level stays inside [0.1, 5.0]. -/
theorem zoom_level_clamped_witness :
    (1/10 : ℚ) ≤ stZ.zoom_level ∧ stZ.zoom_level ≤ 5 ∧
    (1/10 ≤ (([10, 1/100] : List ℚ).foldl (fun s f => adjust_zoom f s) stZ).zoom_level ∧
     (([10, 1/100] : List ℚ).foldl (fun s f => adjust_zoom f s) stZ).zoom_level ≤ 5) :=
  ⟨by norm_num [stZ], by norm_num [stZ],
   zoom_level_clamped [10, 1/100] stZ (by norm_num [stZ]) (by norm_num [stZ])⟩

/-- C10: zoom_in multiplies the zoom level by exactly 1.2 and zoom_out
divides it by exactly 1.2, with no clamping; Ctrl + wheel dispatches to
them; and iterating them drives the zoom level outside the [0.1, 5.0] range
that adjust_zoom enforces (above 5 after nine zoom_in steps from 1.0, below
0.1 after thirteen zoom_out steps from 1.0). -/
theorem wheel_zoom_unclamped :
    (∀ st : AppState ℕ ℕ, (zoom_in st).zoom_level = st.zoom_level * (1.2 : ℚ)) ∧
    (∀ st : AppState ℕ ℕ, (zoom_out st).zoom_level = st.zoom_level / (1.2 : ℚ)) ∧
    (∀ st : AppState ℕ ℕ, wheelEvent true 120 st = zoom_in st) ∧
    (∀ st : AppState ℕ ℕ, wheelEvent true (-120) st = zoom_out st) ∧
    5 < ((List.replicate 9 ()).foldl (fun s _ => zoom_in s) stZ).zoom_level ∧
    ((List.replicate 13 ()).foldl (fun s _ => zoom_out s) stZ).zoom_level < 1/10 := by
  refine ⟨fun st => rfl, fun st => rfl, fun st => ?_, fun st => ?_, ?_, ?_⟩
  · simp [wheelEvent]
  · simp [wheelEvent]
  · norm_num [stZ, zoom_in, List.replicate_succ]
  · norm_num [stZ, zoom_out, List.replicate_succ]

/-- Unfolding delete_page at a loaded state. -/
lemma delete_page_loaded {α β : Type} (fs : List Char → List α) (p : ℕ)
    (st : AppState α β) (path : List Char) (h : st.pdf_path = some path)
    (hne : path ≠ []) :
    delete_page fs p st =
      { st with
        pages_to_delete := insert p st.pages_to_delete,
        modified_pdf := some (rebuild (fs path) (insert p st.pages_to_delete)) } := by
  simp [delete_page, h, hne]

/-- Folding delete_page over a nonempty list of marks accumulates the union
of the marks into pages_to_delete and rebuilds modified_pdf from the
original pages and the accumulated set. -/
lemma foldl_delete_page {α β : Type} (fs : List Char → List α) (path : List Char)
    (hne : path ≠ []) :
    ∀ (L : List ℕ) (st : AppState α β), st.pdf_path = some path → L ≠ [] →
      L.foldl (fun s p => delete_page fs p s) st =
        { st with
          pages_to_delete := st.pages_to_delete ∪ L.toFinset,
          modified_pdf := some (rebuild (fs path) (st.pages_to_delete ∪ L.toFinset)) } := by
  intro L
  induction L with
  | nil => intro st _ hL; exact absurd rfl hL
  | cons p L ih =>
    intro st hst _
    rcases L with _ | ⟨q, L⟩
    · have hset : st.pages_to_delete ∪ ([p] : List ℕ).toFinset =
          insert p st.pages_to_delete := by
        ext x
        simp only [Finset.mem_union, Finset.mem_insert, List.toFinset_cons,
          List.toFinset_nil, Finset.mem_singleton, insert_emptyc_eq]
        tauto
      rw [List.foldl_cons, List.foldl_nil, hset,
        delete_page_loaded fs p st path hst hne]
    · rw [List.foldl_cons]
      have hst2 : (delete_page fs p st).pdf_path = some path := by
        rw [delete_page_loaded fs p st path hst hne]
        exact hst
      rw [ih (delete_page fs p st) hst2 (by simp)]
      rw [delete_page_loaded fs p st path hst hne]
      have hset : insert p st.pages_to_delete ∪ (q :: L).toFinset =
          st.pages_to_delete ∪ (p :: q :: L).toFinset := by
        ext x
        simp only [Finset.mem_union, Finset.mem_insert, List.toFinset_cons,
          List.mem_toFinset, List.mem_cons]
        tauto
      simp [hset, Finset.Insert.comm]

/-- Length of the rebuild loop: the original length minus the number of kept
positions i + 1 (ranging over i + 1 .. i + pages.length) that lie in the
deletion set. -/
lemma rebuildAux_length {α : Type} (s : Finset ℕ) :
    ∀ (pages : List α) (i : ℕ),
      (rebuildAux s i pages).length =
        pages.length - (List.range' (i + 1) pages.length).countP (fun p => decide (p ∈ s)) := by
  intro pages
  induction pages with
  | nil => intro i; simp [rebuildAux]
  | cons a rest ih =>
    intro i
    have hle := List.countP_le_length (p := fun p => decide (p ∈ s))
      (l := List.range' (i + 1 + 1) rest.length)
    simp only [List.length_range'] at hle
    simp only [List.length_cons]
    rw [List.range'_succ, List.countP_cons]
    by_cases h : i + 1 ∈ s
    · rw [show rebuildAux s i (a :: rest) = rebuildAux s (i + 1) rest from by
        simp [rebuildAux, h], ih (i + 1)]
      simp only [decide_eq_true h, if_true]
      omega
    · rw [show rebuildAux s i (a :: rest) = a :: rebuildAux s (i + 1) rest from by
        simp [rebuildAux, h]]
      simp only [List.length_cons]
      rw [ih (i + 1)]
      simp only [decide_eq_false h, Bool.false_eq_true, if_false]
      omega

/-- Counting the members of a deletion set among the page numbers 1 .. n
gives its cardinality, when all its members lie in that range. -/
lemma countP_range'_eq_card (S : Finset ℕ) (n : ℕ)
    (hS : ∀ x ∈ S, 1 ≤ x ∧ x ≤ n) :
    (List.range' 1 n).countP (fun p => decide (p ∈ S)) = S.card := by
  rw [List.countP_eq_length_filter]
  have hnd : ((List.range' 1 n).filter (fun p => decide (p ∈ S))).Nodup :=
    (List.nodup_range' 1 n).filter _
  rw [← List.toFinset_card_of_nodup hnd]
  congr 1
  ext x
  simp only [List.mem_toFinset, List.mem_filter, List.mem_range'_1,
    decide_eq_true_eq]
  constructor
  · rintro ⟨-, hx⟩
    exact hx
  · intro hx
    have h := hS x hx
    exact ⟨⟨h.1, by omega⟩, hx⟩

/-- The rebuild loop equals filtering the enumerated pages by the deletion
set on 1-based indices and projecting back to the pages. -/
lemma rebuildAux_eq_filter {α : Type} (s : Finset ℕ) :
    ∀ (pages : List α) (i : ℕ),
      rebuildAux s i pages =
        ((pages.enumFrom i).filter (fun q => !(decide (q.1 + 1 ∈ s)))).map Prod.snd := by
  intro pages
  induction pages with
  | nil => intro i; simp [rebuildAux]
  | cons a rest ih =>
    intro i
    by_cases h : i + 1 ∈ s
    · simp [rebuildAux, h, ih (i + 1)]
    · simp [rebuildAux, h, ih (i + 1)]

/-- C1: starting from a freshly loaded document and marking a nonempty
sequence of page numbers L (each within 1 .. page count), the modified
document rebuilt by the last delete_page call is exactly the original pages
filtered by the complement of the set S of marks (1-based, in original
order, duplicates counted once), its page count is the original count minus
the cardinality of S, and save_changes writes exactly that page sequence. -/
theorem mark_sequence_rebuilds_filtered {α β : Type} (fs : List Char → List α)
    (path : List Char) (hpath : path ≠ []) (L : List ℕ) (hL : L ≠ [])
    (hin : ∀ p ∈ L, 1 ≤ p ∧ p ≤ (fs path).length) :
    ((L.foldl (fun s p => delete_page fs p s) (freshLoaded path : AppState α β)).modified_pdf
        = some (rebuild (fs path) L.toFinset)) ∧
    rebuild (fs path) L.toFinset =
      (((fs path).enum.filter (fun q => !(decide (q.1 + 1 ∈ L.toFinset)))).map Prod.snd) ∧
    (rebuild (fs path) L.toFinset).length = (fs path).length - L.toFinset.card ∧
    save_changes (L.foldl (fun s p => delete_page fs p s) (freshLoaded path : AppState α β))
      = some (save_path path, rebuild (fs path) L.toFinset) := by
  have hfold := foldl_delete_page fs path hpath L (freshLoaded path : AppState α β) rfl hL
  have hS : ((freshLoaded path : AppState α β).pages_to_delete ∪ L.toFinset) = L.toFinset := by
    simp [freshLoaded]
  rw [hS] at hfold
  refine ⟨by rw [hfold], ?_, ?_, ?_⟩
  · rw [rebuild, rebuildAux_eq_filter]
    rfl
  · rw [rebuild, rebuildAux_length, Nat.zero_add,
      countP_range'_eq_card L.toFinset (fs path).length
        (fun x hx => hin x (List.mem_toFinset.mp hx))]
  · rw [hfold]
    simp [save_changes, freshLoaded]

/-- Witness for mark_sequence_rebuilds_filtered: the 3-page document at
"a.pdf" with page 2 marked twice; the rebuilt document is pages 1 and 3 and
save_changes writes it to the replaced path. -/
theorem mark_sequence_rebuilds_filtered_witness :
    (pathA ≠ []) ∧ (([2, 2] : List ℕ) ≠ []) ∧
    (∀ p ∈ ([2, 2] : List ℕ), 1 ≤ p ∧ p ≤ (fsDoc pathA).length) ∧
    ((([2, 2] : List ℕ).foldl (fun s p => delete_page fsDoc p s)
        (freshLoaded pathA : AppState ℕ ℕ)).modified_pdf
        = some (rebuild (fsDoc pathA) ([2, 2] : List ℕ).toFinset) ∧
     rebuild (fsDoc pathA) ([2, 2] : List ℕ).toFinset =
       (((fsDoc pathA).enum.filter
          (fun q => !(decide (q.1 + 1 ∈ ([2, 2] : List ℕ).toFinset)))).map Prod.snd) ∧
     (rebuild (fsDoc pathA) ([2, 2] : List ℕ).toFinset).length =
       (fsDoc pathA).length - ([2, 2] : List ℕ).toFinset.card ∧
     save_changes (([2, 2] : List ℕ).foldl (fun s p => delete_page fsDoc p s)
        (freshLoaded pathA : AppState ℕ ℕ))
       = some (save_path pathA, rebuild (fsDoc pathA) ([2, 2] : List ℕ).toFinset)) :=
  ⟨by decide, by decide, by decide,
   mark_sequence_rebuilds_filtered fsDoc pathA (by decide) [2, 2] (by decide) (by decide)⟩

/-- C3: marking the same page a second time on a loaded document changes
nothing — neither the deletion set nor the rebuilt modified document. -/
theorem mark_idempotent {α β : Type} (fs : List Char → List α) (p : ℕ)
    (st : AppState α β) (path : List Char) (hpath : st.pdf_path = some path)
    (hne : path ≠ []) :
    delete_page fs p (delete_page fs p st) = delete_page fs p st := by
  rw [delete_page_loaded fs p st path hpath hne]
  rw [delete_page_loaded fs p _ path (by simp [hpath]) hne]
  simp

/-- Witness for mark_idempotent at the concrete loaded state stA. -/
theorem mark_idempotent_witness :
    stA.pdf_path = some pathA ∧ pathA ≠ [] ∧
    delete_page fsDoc 1 (delete_page fsDoc 1 stA) = delete_page fsDoc 1 stA :=
  ⟨rfl, by decide, mark_idempotent fsDoc 1 stA pathA rfl (by decide)⟩

/-- C9: loading a new document replaces the path, resets deleted_pages, the
modified document and the render cache, but leaves pages_to_delete — the
set delete_page actually consults — unchanged; hence the first mark on the
newly loaded document rebuilds it with the stale marks still applied. -/
theorem load_preserves_pages_to_delete {α β : Type} (st : AppState α β)
    (file_name : List Char) (h : file_name ≠ []) (fs : List Char → List α) (p : ℕ) :
    (load_pdf file_name st).pages_to_delete = st.pages_to_delete ∧
    (load_pdf file_name st).pdf_path = some file_name ∧
    (load_pdf file_name st).deleted_pages = ∅ ∧
    (load_pdf file_name st).modified_pdf = none ∧
    (load_pdf file_name st).page_cache = [] ∧
    (delete_page fs p (load_pdf file_name st)).modified_pdf =
      some (rebuild (fs file_name) (insert p st.pages_to_delete)) := by
  refine ⟨by simp [load_pdf, h], by simp [load_pdf, h], by simp [load_pdf, h],
    by simp [load_pdf, h], by simp [load_pdf, h], ?_⟩
  rw [delete_page_loaded fs p _ file_name (by simp [load_pdf, h]) h]
  simp [load_pdf, h]

/-- Witness for load_preserves_pages_to_delete: loading "b.pdf" over the
state stA (which has page 2 marked) keeps the mark, and marking page 1 on
the new document rebuilds it with pages 1 and 2 both deleted. -/
theorem load_preserves_pages_to_delete_witness :
    ((['b', '.', 'p', 'd', 'f'] : List Char) ≠ []) ∧
    ((load_pdf ['b', '.', 'p', 'd', 'f'] stA).pages_to_delete = stA.pages_to_delete ∧
     (load_pdf ['b', '.', 'p', 'd', 'f'] stA).pdf_path = some ['b', '.', 'p', 'd', 'f'] ∧
     (load_pdf ['b', '.', 'p', 'd', 'f'] stA).deleted_pages = ∅ ∧
     (load_pdf ['b', '.', 'p', 'd', 'f'] stA).modified_pdf = none ∧
     (load_pdf ['b', '.', 'p', 'd', 'f'] stA).page_cache = [] ∧
     (delete_page fsDoc 1 (load_pdf ['b', '.', 'p', 'd', 'f'] stA)).modified_pdf =
       some (rebuild (fsDoc ['b', '.', 'p', 'd', 'f']) (insert 1 stA.pages_to_delete))) :=
  ⟨by decide, load_preserves_pages_to_delete stA ['b', '.', 'p', 'd', 'f'] (by decide) fsDoc 1⟩

/-- save_path on a list whose head does not start an occurrence of ".pdf"
keeps the head and continues on the tail. -/
lemma save_path_cons (c : Char) (rest : List Char)
    (h : ¬ pdfExt <+: (c :: rest)) : save_path (c :: rest) = c :: save_path rest := by
  rw [save_path.eq_def]
  split
  · simp_all
  · rename_i heq
    exfalso
    apply h
    rw [heq]
    exact ⟨_, rfl⟩
  · rename_i c2 rest2 h1 h2 heq
    cases heq
    rfl

/-- The pattern ".pdf" cannot straddle the boundary of stem ++ ".pdf": a
prefix occurrence within a nonempty stem-extended list occurs inside the
stem itself. -/
lemma pdfExt_straddle (s : List Char) (hne : s ≠ [])
    (hp : pdfExt <+: (s ++ pdfExt)) : pdfExt <:+: s := by
  rcases s with _ | ⟨a, _ | ⟨b, _ | ⟨c, _ | ⟨d, s5⟩⟩⟩⟩
  · exact absurd rfl hne
  · obtain ⟨t, ht⟩ := hp
    simp [pdfExt] at ht
  · obtain ⟨t, ht⟩ := hp
    simp [pdfExt] at ht
  · obtain ⟨t, ht⟩ := hp
    simp [pdfExt] at ht
  · obtain ⟨t, ht⟩ := hp
    simp only [pdfExt, List.cons_append, List.cons.injEq] at ht
    obtain ⟨h1, h2, h3, h4, -⟩ := ht
    exact ⟨[], s5, by simp [pdfExt]; exact ⟨h1, h2, h3, h4⟩⟩

/-- When ".pdf" does not occur inside the stem, the replace call rewrites
only the final extension. -/
lemma save_path_append (stem : List Char) (h : ¬ pdfExt <:+: stem) :
    save_path (stem ++ pdfExt) = stem ++ modExt := by
  induction stem with
  | nil => decide
  | cons c s ih =>
    by_cases hm : pdfExt <+: (c :: (s ++ pdfExt))
    · exact absurd (pdfExt_straddle (c :: s) (by simp) (by simpa using hm)) h
    · rw [List.cons_append, save_path_cons c (s ++ pdfExt) hm]
      rw [ih ?hs]
      · rfl
      case hs =>
        rintro ⟨u, v, huv⟩
        exact h ⟨c :: u, v, by simp [huv]⟩

/-- C2 counterexample: for the loaded path "a.pdf.pdf" (a valid path ending
in the .pdf extension), save_changes writes to "a_modified.pdf_modified.pdf"
because str.replace substitutes every occurrence of ".pdf", which differs
from the path "a.pdf_modified.pdf" obtained by inserting _modified
immediately before the final extension as the claim states. -/
theorem save_path_counterexample :
    save_changes stDouble = some ('a' :: (modExt ++ modExt), [10]) ∧
    'a' :: (modExt ++ modExt) ≠ pathA ++ modExt := by
  decide

/-- C2 (amended): save_changes writes to the path obtained by replacing
every occurrence of the substring ".pdf" with "_modified.pdf"; whenever the
loaded path is stem ++ ".pdf" with no occurrence of ".pdf" inside the stem,
this equals inserting _modified before the extension, and the written path
differs from the original path, so the original file is not overwritten. -/
theorem save_writes_replaced_path {α β : Type} (st : AppState α β)
    (stem : List Char) (doc : List α) (h1 : st.pdf_path = some (stem ++ pdfExt))
    (h2 : st.modified_pdf = some doc) (h3 : ¬ pdfExt <:+: stem) :
    save_changes st = some (stem ++ modExt, doc) ∧ stem ++ modExt ≠ stem ++ pdfExt := by
  constructor
  · simp [save_changes, h1, h2, save_path_append stem h3]
  · intro hcontra
    exact absurd (List.append_cancel_left hcontra) (by decide)

/-- Witness for save_writes_replaced_path at the loaded path "a.pdf" with a
pending one-page modified document. -/
theorem save_writes_replaced_path_witness :
    stSave.pdf_path = some (['a'] ++ pdfExt) ∧
    stSave.modified_pdf = some [10] ∧
    ¬ pdfExt <:+: ['a'] ∧
    (save_changes stSave = some (['a'] ++ modExt, [10]) ∧
     ['a'] ++ modExt ≠ ['a'] ++ pdfExt) :=
  ⟨rfl, rfl, by decide,
   save_writes_replaced_path stSave ['a'] [10] rfl rfl (by decide)⟩

end PageDeleter
